import Mathlib

/-!
Verification of a two-step LangGraph pipeline
(`01-LangGraph_Intro/01.1-graph_basics-v4.py`).

The script defines a state schema `GraphState` with a single field
`messages : list[dict]`, two node functions `process_node` and
`finalize_node` that each append one message record in place, wires them
into a `StateGraph` (`process → finalize`, entry `process`, finish
`finalize`), compiles it, invokes it on `{"messages": []}` and prints the
final state.

We embed the data model and the two node functions directly, model the
graph wiring (node registry, edge list, entry/finish points) and a
fuel-based executor that follows the registered edges from the entry point
to the finish point while recording the execution trace.  Two auxiliary
embeddings capture the effectful aspects of the script: an `Except`-based
variant where the `messages` key may be absent (Python raises `KeyError`
on `state["messages"]`), and an explicit heap model in which the messages
list is a mutable reference, capturing the in-place `list.append`
mutation shared between the caller and the pipeline.
-/

/-- A message record: a dict with `content` and `status` string fields. -/
structure Message where
  content : String
  status : String
deriving DecidableEq, Repr

/-- The state schema: `class GraphState(TypedDict): messages: list[dict]`. -/
structure GraphState where
  messages : List Message
deriving DecidableEq, Repr

/-- The record built by `process_node`:
`{"content": "Processed message", "status": "processed"}`. -/
def processedMessage : Message :=
  { content := "Processed message", status := "processed" }

/-- The record built by `finalize_node`:
`{"content": "Finalized message", "status": "finalized"}`. -/
def finalizedMessage : Message :=
  { content := "Finalized message", status := "finalized" }

/-- `process_node`: appends the processed message to `state["messages"]`
and returns the state. -/
def process_node (state : GraphState) : GraphState :=
  { state with messages := state.messages ++ [processedMessage] }

/-- `finalize_node`: appends the finalized message to `state["messages"]`
and returns the state. -/
def finalize_node (state : GraphState) : GraphState :=
  { state with messages := state.messages ++ [finalizedMessage] }

/-- The node registry: `graph.add_node("process", process_node)` and
`graph.add_node("finalize", finalize_node)`. -/
def graphNodes : List (String × (GraphState → GraphState)) :=
  [("process", process_node), ("finalize", finalize_node)]

/-- The edge list: `graph.add_edge("process", "finalize")`. -/
def graphEdges : List (String × String) :=
  [("process", "finalize")]

/-- `graph.set_entry_point("process")`. -/
def entryPoint : String := "process"

/-- `graph.set_finish_point("finalize")`. -/
def finishPoint : String := "finalize"

/-- Fuel-based executor over the registered graph: run the node named
`name`, stop after the finish point, otherwise follow the unique outgoing
edge.  Returns the list of executed node names together with the final
state, or `none` if the fuel runs out or a lookup fails. -/
def runFrom : Nat → String → GraphState → Option (List String × GraphState)
  | 0, _, _ => none
  | fuel + 1, name, s =>
    match (graphNodes.find? (fun p => p.1 == name)).map Prod.snd with
    | none => none
    | some f =>
      let s' := f s
      if name == finishPoint then
        some ([name], s')
      else
        match (graphEdges.find? (fun e => e.1 == name)).map Prod.snd with
        | none => none
        | some nxt =>
          (runFrom fuel nxt s').map (fun r => (name :: r.1, r.2))

/-- `app.invoke(state)`: execute the compiled graph from the entry point.
The fuel `graphNodes.length + 1` suffices for any acyclic traversal of
this graph. -/
def invoke (state : GraphState) : Option (List String × GraphState) :=
  runFrom (graphNodes.length + 1) entryPoint state

/-- `initial_state = {"messages": []}`. -/
def initial_state : GraphState := { messages := [] }

/-- `result = app.invoke(initial_state)`. -/
def result : Option (List String × GraphState) := invoke initial_state

/-- The compiled pipeline runs `process_node` then `finalize_node`, with
execution trace `["process", "finalize"]`, on every input state. -/
theorem invoke_eq (s : GraphState) :
    invoke s = some (["process", "finalize"], finalize_node (process_node s)) := by
  rfl

/-- Single quote character, used by the Python `repr` rendering below. -/
def singleQuote : String := String.singleton (Char.ofNat 39)

/-- Python `repr` of a message dict, keys in insertion order
(`content` first, then `status`). -/
def pyReprMessage (m : Message) : String :=
  "\x7b" ++ singleQuote ++ "content" ++ singleQuote ++ ": " ++
    singleQuote ++ m.content ++ singleQuote ++ ", " ++
    singleQuote ++ "status" ++ singleQuote ++ ": " ++
    singleQuote ++ m.status ++ singleQuote ++ "\x7d"

/-- Python `str` of the final state dict: the `messages` key mapped to the
list of message dicts, in insertion order. -/
def pyReprState (s : GraphState) : String :=
  "\x7b" ++ singleQuote ++ "messages" ++ singleQuote ++ ": [" ++
    String.intercalate ", " (s.messages.map pyReprMessage) ++ "]\x7d"

/-- The lines written to standard output by the script:
`print("Final state after graph execution:", result)` emits one line,
the label, a separating space, and the rendering of the final state. -/
def programStdout : List String :=
  match result with
  | some r => ["Final state after graph execution: " ++ pyReprState r.2]
  | none => []

/-- Raw state in which the `messages` key may be absent, as in a malformed
initial state; `state["messages"]` then raises `KeyError` in Python. -/
structure RawState where
  messages : Option (List Message)
deriving DecidableEq, Repr

/-- `process_node` on a raw state: fails with a `KeyError` when the
`messages` key is missing, no local handling. -/
def processNodeRaw (state : RawState) : Except String RawState :=
  match state.messages with
  | none => .error "KeyError: messages"
  | some ms => .ok { messages := some (ms ++ [processedMessage]) }

/-- `finalize_node` on a raw state: fails with a `KeyError` when the
`messages` key is missing, no local handling. -/
def finalizeNodeRaw (state : RawState) : Except String RawState :=
  match state.messages with
  | none => .error "KeyError: messages"
  | some ms => .ok { messages := some (ms ++ [finalizedMessage]) }

/-- The pipeline over raw states: any failure in a step propagates to the
caller unhandled. -/
def invokeRaw (state : RawState) : Except String RawState :=
  (processNodeRaw state).bind finalizeNodeRaw

/-- Process exit status: 0 on normal completion; an uncaught error
terminates the interpreter with a non-zero status. -/
def programExitCode (init : RawState) : Nat :=
  match invokeRaw init with
  | .ok _ => 0
  | .error _ => 1

/-- Heap model for the in-place mutation: the messages list lives at a
reference into an explicit heap, `heapGet` reads the list at a
reference. -/
def heapGet (h : List (List Message)) (r : Nat) : List Message :=
  h.getD r []

/-- `state["messages"].append(m)`: mutate the list stored at reference
`r` in place. -/
def heapAppend (h : List (List Message)) (r : Nat) (m : Message) :
    List (List Message) :=
  h.set r (heapGet h r ++ [m])

/-- A graph state as seen by the Python runtime: a dict holding a
reference to the (shared, mutable) messages list. -/
structure HGraphState where
  messagesRef : Nat
deriving DecidableEq, Repr

/-- `process_node` on the heap model: appends in place through the
reference and returns the same state (same reference). -/
def processNodeHeap (h : List (List Message)) (s : HGraphState) :
    List (List Message) × HGraphState :=
  (heapAppend h s.messagesRef processedMessage, s)

/-- `finalize_node` on the heap model: appends in place through the
reference and returns the same state (same reference). -/
def finalizeNodeHeap (h : List (List Message)) (s : HGraphState) :
    List (List Message) × HGraphState :=
  (heapAppend h s.messagesRef finalizedMessage, s)

/-- `app.invoke` on the heap model: the single state value is passed by
reference through the two steps (spec §2, §5). -/
def invokeHeap (h : List (List Message)) (s : HGraphState) :
    List (List Message) × HGraphState :=
  let r1 := processNodeHeap h s
  finalizeNodeHeap r1.1 r1.2

/-- C1: Running the compiled pipeline on the initial state
`{"messages": []}` returns a final state whose messages sequence has
length exactly 2 and equals the processed record followed by the
finalized record. -/
theorem invoke_initial_state_two_messages :
    ∃ st : GraphState, result = some (["process", "finalize"], st) ∧
      st.messages.length = 2 ∧
      st.messages = [processedMessage, finalizedMessage] := by
  exact ⟨{ messages := [processedMessage, finalizedMessage] }, rfl, rfl, rfl⟩

/-- C2: For every initial state with `N` pre-existing records the
pipeline returns a final state with exactly `N + 2` records: the first
`N` are the original records unchanged and in order, the last two are
the processed record followed by the finalized record. -/
theorem invoke_frame_append_only (s : GraphState) :
    ∃ st : GraphState, invoke s = some (["process", "finalize"], st) ∧
      st.messages.length = s.messages.length + 2 ∧
      st.messages.take s.messages.length = s.messages ∧
      st.messages.drop s.messages.length = [processedMessage, finalizedMessage] ∧
      st.messages = s.messages ++ [processedMessage, finalizedMessage] := by
  refine ⟨finalize_node (process_node s), invoke_eq s, ?_, ?_, ?_, ?_⟩ <;>
    simp [process_node, finalize_node, List.take_left, List.drop_left]

/-- C3: In every complete run the appended processed record precedes the
appended finalized record, and the run appends exactly one record per
executed step, in the order the steps executed
(trace `["process", "finalize"]`). -/
theorem processed_precedes_finalized (s : GraphState) :
    ∃ st : GraphState, invoke s = some (["process", "finalize"], st) ∧
      st.messages = s.messages ++ [processedMessage, finalizedMessage] ∧
      ∃ i j : Nat, i < j ∧
        st.messages[i]? = some processedMessage ∧
        st.messages[j]? = some finalizedMessage := by
  refine ⟨finalize_node (process_node s), invoke_eq s, ?_,
    s.messages.length, s.messages.length + 1, by omega, ?_, ?_⟩
  · simp [process_node, finalize_node]
  · show (finalize_node (process_node s)).messages[s.messages.length]? = _
    simp only [process_node, finalize_node, List.append_assoc]
    rw [List.getElem?_append_right (le_refl _)]
    simp
  · show (finalize_node (process_node s)).messages[s.messages.length + 1]? = _
    simp only [process_node, finalize_node, List.append_assoc]
    rw [List.getElem?_append_right (by omega)]
    simp

/-- C4: `process_node` appends exactly one new record, with content
`"Processed message"` and status `"processed"`, to the state's message
sequence. -/
theorem process_node_appends_one (s : GraphState) :
    (process_node s).messages = s.messages ++ [processedMessage] ∧
    (process_node s).messages.length = s.messages.length + 1 ∧
    processedMessage.content = "Processed message" ∧
    processedMessage.status = "processed" := by
  refine ⟨rfl, by simp [process_node], rfl, rfl⟩

/-- C5: `finalize_node` appends exactly one new record, with content
`"Finalized message"` and status `"finalized"`, to the state's message
sequence. -/
theorem finalize_node_appends_one (s : GraphState) :
    (finalize_node s).messages = s.messages ++ [finalizedMessage] ∧
    (finalize_node s).messages.length = s.messages.length + 1 ∧
    finalizedMessage.content = "Finalized message" ∧
    finalizedMessage.status = "finalized" := by
  refine ⟨rfl, by simp [finalize_node], rfl, rfl⟩

/-- C6: The program emits exactly one line on standard output: the
literal prefix `Final state after graph execution:` followed by the
rendering of the final state, whose messages list holds the two
accumulated records in insertion order. -/
theorem stdout_single_line :
    programStdout.length = 1 ∧
    ∃ rendering : String,
      programStdout = ["Final state after graph execution: " ++ rendering] ∧
      rendering = pyReprState { messages := [processedMessage, finalizedMessage] } := by
  exact ⟨rfl, pyReprState { messages := [processedMessage, finalizedMessage] }, rfl, rfl⟩

/-- C7: The record a step appends does not depend on the prior contents
of the state: for any two input states, `process_node` appends the
identical record (always the processed record), and likewise
`finalize_node` (always the finalized record). -/
theorem appended_record_state_independent (s t : GraphState) :
    (process_node s).messages.drop s.messages.length =
      (process_node t).messages.drop t.messages.length ∧
    (process_node s).messages.drop s.messages.length = [processedMessage] ∧
    (finalize_node s).messages.drop s.messages.length =
      (finalize_node t).messages.drop t.messages.length ∧
    (finalize_node s).messages.drop s.messages.length = [finalizedMessage] := by
  simp [process_node, finalize_node, List.drop_left]

/-- C8: When the `messages` field is missing from the initial state, the
failure raised inside the first step propagates unhandled and the
process exits with a non-zero status; a well-formed state completes with
status 0. -/
theorem missing_messages_unhandled :
    invokeRaw { messages := none } = .error "KeyError: messages" ∧
    programExitCode { messages := none } ≠ 0 ∧
    programExitCode { messages := some [] } = 0 := by
  exact ⟨rfl, by decide, rfl⟩

/-- C9: `process_node` is not idempotent as a state transformer:
applying it twice appends two records (both copies of the processed
record), so `process_node (process_node s) ≠ process_node s` for every
state `s`. -/
theorem process_node_not_idempotent (s : GraphState) :
    (process_node (process_node s)).messages.length = s.messages.length + 2 ∧
    (process_node (process_node s)).messages =
      s.messages ++ [processedMessage, processedMessage] ∧
    process_node (process_node s) ≠ process_node s := by
  refine ⟨by simp [process_node], by simp [process_node], ?_⟩
  intro h
  have hlen := congrArg (fun st => st.messages.length) h
  simp [process_node] at hlen

/-- C10: The pipeline mutates the caller's state in place: the returned
state holds the same messages-list reference as the caller's initial
state, and reading the caller's original reference after the run yields
the initial records followed by the two appended records. -/
theorem invoke_mutates_caller_state (init : List Message) :
    (invokeHeap [init] { messagesRef := 0 }).2.messagesRef =
      HGraphState.messagesRef { messagesRef := 0 } ∧
    heapGet (invokeHeap [init] { messagesRef := 0 }).1 0 =
      init ++ [processedMessage, finalizedMessage] := by
  refine ⟨rfl, ?_⟩
  have h1 : (invokeHeap [init] { messagesRef := 0 }).1 =
      [(init ++ [processedMessage]) ++ [finalizedMessage]] := rfl
  have h2 : heapGet [(init ++ [processedMessage]) ++ [finalizedMessage]] 0 =
      (init ++ [processedMessage]) ++ [finalizedMessage] := rfl
  rw [h1, h2, List.append_assoc]
  rfl
